import Mathlib

/-!
Shallow embedding of the nx-check-changes action (src/main.ts): the
reference resolver (getBaseAndHeadRefs) and the affected-set resolver
(getChanges), together with the regex-based path classifier (dirFinder),
modelled character by character.  JavaScript Sets are modelled as
insertion-ordered duplicate-free lists, and the GitHub context object is
modelled as an explicit structure.
-/

namespace NxCheckChanges

/-- Boolean test used to model the regex character class [^/]. -/
def notSlash (c : Char) : Bool := decide (c ≠ '/')

/-- The four ECMAScript line terminators, which the unflagged regex dot
does not match: LF, CR, LINE SEPARATOR (U+2028) and PARAGRAPH SEPARATOR
(U+2029). -/
def isLineTerm (c : Char) : Bool :=
  decide (c = '\n' ∨ c = '\r' ∨ c = '\u2028' ∨ c = '\u2029')

/-- ECMAScript pattern metacharacters.  The source interpolates the
directory into new RegExp without escaping, so only a directory free of
these characters is matched literally by the constructed pattern. -/
def regexMeta : List Char :=
  ['^', '$', '\\', '.', '*', '+', '?', '(', ')', '[', ']', '\x7b', '\x7d', '|']

/-- Directory strings that new RegExp treats as literal text: no pattern
metacharacter occurs in them.  The character-level embedding of the
matcher agrees with the source's constructed regex exactly on this
domain; a metacharacter directory changes the pattern (an alternation
bar, say, can make the real regex match where literal matching does
not) or even makes new RegExp throw, so statements that assert
non-matching carry this assumption. -/
def regexLiteral (s : String) : Prop := ∀ c ∈ s.data, c ∉ regexMeta

instance decRegexLiteral (s : String) : Decidable (regexLiteral s) :=
  inferInstanceAs (Decidable (∀ c ∈ s.data, c ∉ regexMeta))

/-- Number of '/' characters in a character list. -/
def countSlash (cs : List Char) : Nat := cs.countP (fun c => decide (c = '/'))

/-- Match a literal character sequence at the front of a list, returning the
remainder on success (models matching the literal part of the regex). -/
def stripChars : List Char → List Char → Option (List Char)
  | [], cs => some cs
  | _ :: _, [] => none
  | p :: ps, c :: cs => if p = c then stripChars ps cs else none

/-- Attempt of the part of the regex after the literal directory prefix,
namely `[^/]+\/.+`, on the remaining characters rest1, returning the
content of capture group 1 (the directory followed by the first segment)
on success.  The final `.+` requires at least one character that is not
an ECMAScript line terminator, because the unflagged JavaScript dot
matches every character except the four line terminators. -/
def matchTail (dir rest1 : List Char) : Option (List Char) :=
  match rest1.dropWhile notSlash with
  | x :: c :: _ =>
    if x = '/' ∧ rest1.takeWhile notSlash ≠ [] ∧ isLineTerm c = false then
      some (dir ++ '/' :: rest1.takeWhile notSlash)
    else none
  | _ => none

/-- Attempt of the whole pattern at the start of cs: the literal part first,
then the segment-and-tail part.  The directory string is matched
literally here; this coincides with the regex the source constructs
exactly for directories satisfying regexLiteral, and theorems whose
truth depends on the matcher failing carry that hypothesis. -/
def matchAt (dir cs : List Char) : Option (List Char) :=
  match stripChars (dir ++ ['/']) cs with
  | none => none
  | some rest1 => matchTail dir rest1

/-- Leftmost-match search: try the pattern at every start position from the
left, as the unanchored JavaScript regex engine does. -/
def findFrom (dir : List Char) : List Char → Option (List Char)
  | [] => matchAt dir []
  | c :: tl =>
    match matchAt dir (c :: tl) with
    | some cap => some cap
    | none => findFrom dir tl

/-- Embedding of dirFinder from src/main.ts: builds the matcher for the
pattern `(dir\/[^/]+)\/.+` and returns the first capture group of the first
match of the changed-file path, or none when the regex does not match. -/
def dirFinder (dir : String) (file : String) : Option String :=
  (findFrom dir.data file.data).map (fun cap => String.mk cap)

/-- Embedding of JavaScript String.prototype.split('/') on character lists:
splits at every '/', keeping empty segments. -/
def splitSlash : List Char → List (List Char)
  | [] => [[]]
  | c :: cs =>
    if c = '/' then [] :: splitSlash cs
    else
      match splitSlash cs with
      | [] => [[c]]
      | s :: rest => (c :: s) :: rest

/-- Last element of a list of segments, defaulting to the empty segment. -/
def lastD (l : List (List Char)) : List Char := l.getLastD []

/-- Embedding of the source idiom `s.split('/').slice(-1)[0]`: the final
path segment of a string. -/
def lastSegment (s : String) : String := String.mk (lastD (splitSlash s.data))

/-- Embedding of one entry of the implicitDependencies table built in
main(): a global entry carries a file path (key and projects absent), a
keyed fan-out entry carries a key and the set of declaring project names
(file absent).  The untyped JavaScript records are modelled with optional
fields; the projects Set is an insertion-ordered list. -/
structure ImplicitDep where
  file : Option String
  key : Option String
  projects : List String
deriving DecidableEq, Repr

/-- The accumulator of the reduce in getChanges: two JavaScript Sets
(insertion-ordered duplicate-free lists) and a plain array. -/
structure Accum where
  apps : List String
  libs : List String
  implicitDependencies : List String
deriving DecidableEq, Repr

/-- The result record of getChanges. -/
structure Changes where
  apps : List String
  libs : List String
  implicitDependencies : List String
deriving DecidableEq, Repr

/-- Embedding of JavaScript Set.prototype.add on the ordered-list model:
append the element if it is not already present. -/
def addUnique (l : List String) (x : String) : List String :=
  if x ∈ l then l else l ++ [x]

/-- Embedding of the first if-block of the reducer in getChanges: on an
exact match of the changed file against an entry's recorded file, push the
entry's file and add the final segment of every known app and lib name. -/
def applyImplicitRule (allApps allLibs : List String) (deps : List ImplicitDep)
    (file : String) (acc : Accum) : Accum :=
  match deps.find? (fun d => d.file = some file) with
  | none => acc
  | some d =>
    { apps := allApps.foldl (fun s a => addUnique s (lastSegment a)) acc.apps
      libs := allLibs.foldl (fun s l => addUnique s (lastSegment l)) acc.libs
      implicitDependencies := acc.implicitDependencies ++ [d.file.getD ""] }

/-- Embedding of the body of the fan-out forEach in getChanges: a project
listed by the triggered entry is added to the apps bucket when it is a
member of allApps and to the libs bucket when it is a member of allLibs. -/
def fanoutStep (allApps allLibs : List String) (acc : Accum) (project : String) : Accum :=
  let acc :=
    if project ∈ allApps then
      { acc with apps := addUnique acc.apps (lastSegment project) }
    else acc
  if project ∈ allLibs then
    { acc with libs := addUnique acc.libs (lastSegment project) }
  else acc

/-- Embedding of the keyed lookup and forEach in the second if-block of
the reducer in getChanges: find the entry whose key equals the matched
library's name and fan out over its projects; the optional chaining means
a missing entry leaves the accumulator unchanged. -/
def applyFanout (allApps allLibs : List String) (deps : List ImplicitDep)
    (libName : String) (acc : Accum) : Accum :=
  match deps.find? (fun d => d.key = some libName) with
  | none => acc
  | some entry => entry.projects.foldl (fanoutStep allApps allLibs) acc

/-- Embedding of the second if-block of the reducer in getChanges: on a
lib-directory match, add the matched library's final segment to libs, then
fan out over the projects of the entry whose key equals that name. -/
def applyLibRule (libsDir : String) (allApps allLibs : List String)
    (deps : List ImplicitDep) (file : String) (acc : Accum) : Accum :=
  match dirFinder libsDir file with
  | none => acc
  | some lib =>
    applyFanout allApps allLibs deps (lastSegment lib)
      { acc with libs := addUnique acc.libs (lastSegment lib) }

/-- Embedding of the third if-block of the reducer in getChanges: on an
app-directory match, add the matched application's final segment to apps. -/
def applyAppRule (appsDir : String) (file : String) (acc : Accum) : Accum :=
  match dirFinder appsDir file with
  | none => acc
  | some app => { acc with apps := addUnique acc.apps (lastSegment app) }

/-- One step of the reduce in getChanges: the three if-blocks run in
sequence on the same accumulator, none short-circuits another. -/
def getChangesStep (appsDir libsDir : String) (allApps allLibs : List String)
    (deps : List ImplicitDep) (acc : Accum) (file : String) : Accum :=
  applyAppRule appsDir file
    (applyLibRule libsDir allApps allLibs deps file
      (applyImplicitRule allApps allLibs deps file acc))

/-- Embedding of getChanges from src/main.ts: reduce over the changed
files starting from empty sets, then return the accumulated values, with
the ignore list filtered out of apps only (the source does not filter
libs, and never filters implicitDependencies). -/
def getChanges (appsDir libsDir : String) (allApps allLibs : List String)
    (implicitDependencies : List ImplicitDep) (changedFiles : List String)
    (ignore : List String) : Changes :=
  let changes := changedFiles.foldl
    (getChangesStep appsDir libsDir allApps allLibs implicitDependencies)
    { apps := [], libs := [], implicitDependencies := [] }
  { apps := changes.apps.filter (fun name => decide (name ∉ ignore))
    libs := changes.libs
    implicitDependencies := changes.implicitDependencies }

/-- The fields of the GitHub actions context read by getBaseAndHeadRefs.
Optional payload values that may be undefined at runtime are modelled as
strings with the empty string for absence, which matches the truthiness
checks the source performs on them. -/
structure ActionContext where
  eventName : String
  pullRequestBaseSha : String
  pullRequestHeadSha : String
  payloadBefore : String
  payloadAfter : String
deriving DecidableEq, Repr

/-- Outcome of the JavaScript JSON.parse call on the raw ignore input,
abstracted as a collaborator: the call throws, or returns an array (whose
string elements are kept), or returns a non-array value. -/
inductive JsonParseResult where
  | failure
  | array (items : List String)
  | nonArrayValue
deriving DecidableEq, Repr

/-- Embedding of the try/catch plus Array.isArray check around JSON.parse
in getBaseAndHeadRefs: any outcome other than an array yields the empty
ignore list (the catch only logs). -/
def parsedIgnoreOf : JsonParseResult → List String
  | JsonParseResult.array items => items
  | _ => []

/-- The record returned by getBaseAndHeadRefs. -/
structure Refs where
  base : String
  head : String
  ignore : List String
deriving DecidableEq, Repr

/-- The two throw sites of getBaseAndHeadRefs: the default branch of the
switch (missing explicit refs for the event type) and the defensive
re-check after the switch. -/
inductive RefsError where
  | missingRefsForEvent (eventName : String)
  | missingRefs
deriving DecidableEq, Repr

/-- Embedding of getBaseAndHeadRefs from src/main.ts: the switch on the
event name overwrites base and head from the payload for pull_request and
push, requires them to be supplied for any other event, then the ignore
input is parsed best-effort, and finally the defensive re-check throws if
either ref is still empty. -/
def getBaseAndHeadRefs (ctx : ActionContext) (base head : String)
    (ignoreParse : JsonParseResult) : Except RefsError Refs :=
  let switched : Except RefsError (String × String) :=
    if ctx.eventName = "pull_request" then
      Except.ok (ctx.pullRequestBaseSha, ctx.pullRequestHeadSha)
    else if ctx.eventName = "push" then
      Except.ok (ctx.payloadBefore, ctx.payloadAfter)
    else if base = "" ∨ head = "" then
      Except.error (RefsError.missingRefsForEvent ctx.eventName)
    else
      Except.ok (base, head)
  match switched with
  | Except.error e => Except.error e
  | Except.ok (b, h) =>
    let parsedIgnore := parsedIgnoreOf ignoreParse
    if b = "" ∨ h = "" then Except.error RefsError.missingRefs
    else Except.ok { base := b, head := h, ignore := parsedIgnore }

/-- Embedding of the sequencing in main(): reference resolution runs
first, and the changed-file diff collaborator is consulted only on its
success, so a resolution failure aborts before any diff is attempted. -/
def resolveThenDiff (ctx : ActionContext) (base head : String)
    (ignoreParse : JsonParseResult)
    (compareRevisions : String → String → List String) :
    Except RefsError (List String) :=
  match getBaseAndHeadRefs ctx base head ignoreParse with
  | Except.error e => Except.error e
  | Except.ok refs => Except.ok (compareRevisions refs.base refs.head)

lemma stripChars_eq_some {p cs r : List Char} (h : stripChars p cs = some r) :
    cs = p ++ r := by
  induction p generalizing cs with
  | nil =>
    simp only [stripChars, Option.some.injEq] at h
    simpa using h
  | cons a ps ih =>
    cases cs with
    | nil => simp [stripChars] at h
    | cons c cs' =>
      by_cases hac : a = c
      · subst hac
        simp only [stripChars, if_pos rfl] at h
        simpa using ih h
      · simp [stripChars, hac] at h

lemma stripChars_append (p r : List Char) : stripChars p (p ++ r) = some r := by
  induction p with
  | nil => rfl
  | cons a ps ih => simp [stripChars, ih]

lemma countSlash_append (xs ys : List Char) :
    countSlash (xs ++ ys) = countSlash xs + countSlash ys := by
  simp [countSlash, List.countP_append]

lemma countSlash_cons_slash (cs : List Char) :
    countSlash ('/' :: cs) = countSlash cs + 1 := by
  simp [countSlash, List.countP_cons]

lemma countSlash_cons_le (c : Char) (cs : List Char) :
    countSlash cs ≤ countSlash (c :: cs) := by
  simp only [countSlash, List.countP_cons]
  omega

lemma matchTail_eq_some {dir rest1 cap : List Char} (h : matchTail dir rest1 = some cap) :
    ∃ c tail, rest1.dropWhile notSlash = '/' :: c :: tail ∧
      rest1.takeWhile notSlash ≠ [] ∧ isLineTerm c = false ∧
      cap = dir ++ '/' :: rest1.takeWhile notSlash := by
  unfold matchTail at h
  split at h
  case _ x c tail hdrop =>
    split at h
    case isTrue hcond =>
      obtain ⟨hx, hseg, hnl⟩ := hcond
      subst hx
      exact ⟨c, tail, hdrop, hseg, hnl, (Option.some.injEq _ _).mp h.symm⟩
    case isFalse => exact absurd h (by simp)
  case _ => exact absurd h (by simp)

lemma matchAt_eq_some {dir cs cap : List Char} (h : matchAt dir cs = some cap) :
    ∃ rest1, stripChars (dir ++ ['/']) cs = some rest1 ∧ matchTail dir rest1 = some cap := by
  unfold matchAt at h
  split at h
  case _ => exact absurd h (by simp)
  case _ rest1 hstrip => exact ⟨rest1, hstrip, h⟩

lemma matchAt_countSlash {dir cs cap : List Char} (h : matchAt dir cs = some cap) :
    countSlash dir + 2 ≤ countSlash cs := by
  obtain ⟨rest1, hstrip, htail⟩ := matchAt_eq_some h
  obtain ⟨c, tail, hdrop, _, _, _⟩ := matchTail_eq_some htail
  have hcs : cs = (dir ++ ['/']) ++ rest1 := stripChars_eq_some hstrip
  have hrest : rest1 = rest1.takeWhile notSlash ++ ('/' :: c :: tail) := by
    conv_lhs => rw [← List.takeWhile_append_dropWhile (p := notSlash) (l := rest1)]
    rw [hdrop]
  have h1 : 1 ≤ countSlash rest1 := by
    rw [hrest, countSlash_append, countSlash_cons_slash]
    omega
  have h2 : countSlash ['/'] = 1 := by decide
  rw [hcs, countSlash_append, countSlash_append, h2]
  omega

lemma matchAt_nil (dir : List Char) : matchAt dir [] = none := by
  unfold matchAt
  cases dir <;> simp [stripChars]

lemma findFrom_countSlash {dir cs cap : List Char} (h : findFrom dir cs = some cap) :
    countSlash dir + 2 ≤ countSlash cs := by
  induction cs with
  | nil => rw [findFrom, matchAt_nil] at h; exact absurd h (by simp)
  | cons c tl ih =>
    rw [findFrom] at h
    cases hm : matchAt dir (c :: tl) with
    | some cap' => exact matchAt_countSlash hm
    | none =>
      rw [hm] at h
      exact le_trans (ih h) (countSlash_cons_le c tl)

lemma findFrom_eq_none_of_count {dir cs : List Char}
    (h : countSlash cs < countSlash dir + 2) : findFrom dir cs = none := by
  cases hf : findFrom dir cs with
  | none => rfl
  | some cap => exact absurd (findFrom_countSlash hf) (by omega)

lemma dirFinder_eq_none_of_count {dir file : String}
    (h : countSlash file.data < countSlash dir.data + 2) :
    dirFinder dir file = none := by
  unfold dirFinder
  rw [findFrom_eq_none_of_count h]
  rfl

lemma takeWhile_dropWhile_notSlash {name : List Char} (zs : List Char) (h : '/' ∉ name) :
    (name ++ '/' :: zs).takeWhile notSlash = name ∧
    (name ++ '/' :: zs).dropWhile notSlash = '/' :: zs := by
  induction name with
  | nil => constructor <;> simp [notSlash]
  | cons a name' ih =>
    have ha : a ≠ '/' := fun hh => h (hh ▸ List.mem_cons_self a name')
    have hmem : '/' ∉ name' := fun hh => h (List.mem_cons_of_mem a hh)
    obtain ⟨h1, h2⟩ := ih hmem
    have hna : notSlash a = true := by
      simp only [notSlash, decide_eq_true_eq]
      exact ha
    constructor
    · simpa [List.takeWhile_cons, hna] using h1
    · simpa [List.dropWhile_cons, hna] using h2

lemma matchAt_start {dir name : List Char} (c : Char) (rest : List Char)
    (hslash : '/' ∉ name) (hne : name ≠ []) (hnl : isLineTerm c = false) :
    matchAt dir (dir ++ '/' :: (name ++ '/' :: c :: rest)) = some (dir ++ '/' :: name) := by
  have hstrip : stripChars (dir ++ ['/']) (dir ++ '/' :: (name ++ '/' :: c :: rest))
      = some (name ++ '/' :: c :: rest) := by
    have := stripChars_append (dir ++ ['/']) (name ++ '/' :: c :: rest)
    simpa using this
  obtain ⟨htake, hdrop⟩ := takeWhile_dropWhile_notSlash (c :: rest) hslash
  unfold matchAt matchTail
  simp only [hstrip, hdrop, htake]
  simp [hne, hnl]

lemma findFrom_of_matchAt {dir cs cap : List Char} (h : matchAt dir cs = some cap) :
    findFrom dir cs = some cap := by
  cases cs with
  | nil => rw [matchAt_nil] at h; exact absurd h (by simp)
  | cons c tl => rw [findFrom, h]

lemma splitSlash_ne_nil (cs : List Char) : splitSlash cs ≠ [] := by
  cases cs with
  | nil => simp [splitSlash]
  | cons c cs' =>
    unfold splitSlash
    split
    · simp
    · split <;> simp

lemma splitSlash_cons_slash (cs : List Char) :
    splitSlash ('/' :: cs) = [] :: splitSlash cs := by
  conv_lhs => unfold splitSlash
  rw [if_pos rfl]

lemma splitSlash_cons_ne {c : Char} {cs s : List Char} {rest : List (List Char)}
    (hc : c ≠ '/') (hs : splitSlash cs = s :: rest) :
    splitSlash (c :: cs) = (c :: s) :: rest := by
  conv_lhs => unfold splitSlash
  rw [if_neg hc, hs]

lemma splitSlash_no_slash {cs : List Char} (h : '/' ∉ cs) : splitSlash cs = [cs] := by
  induction cs with
  | nil => rfl
  | cons c cs' ih =>
    have hc : c ≠ '/' := fun hh => h (hh ▸ List.mem_cons_self c cs')
    have hmem : '/' ∉ cs' := fun hh => h (List.mem_cons_of_mem c hh)
    exact splitSlash_cons_ne hc (ih hmem)

lemma splitSlash_length (cs : List Char) :
    (splitSlash cs).length = countSlash cs + 1 := by
  induction cs with
  | nil => simp [splitSlash, countSlash]
  | cons c cs' ih =>
    by_cases hc : c = '/'
    · subst hc
      rw [splitSlash_cons_slash, countSlash_cons_slash]
      simp [ih]
    · cases hs : splitSlash cs' with
      | nil => exact absurd hs (splitSlash_ne_nil cs')
      | cons s rest =>
        rw [splitSlash_cons_ne hc hs]
        rw [hs] at ih
        have hcount : countSlash (c :: cs') = countSlash cs' := by
          simp [countSlash, List.countP_cons, hc]
        rw [hcount]
        simpa using ih

lemma lastD_cons_of_ne_nil {s : List Char} {r : List (List Char)} (h : r ≠ []) :
    lastD (s :: r) = lastD r := by
  cases r with
  | nil => exact absurd rfl h
  | cons y r' => simp [lastD, List.getLastD_cons]

lemma lastD_cons_splitSlash (s : List Char) (cs : List Char) :
    lastD (s :: splitSlash cs) = lastD (splitSlash cs) :=
  lastD_cons_of_ne_nil (splitSlash_ne_nil cs)

lemma lastD_splitSlash_append (xs ys : List Char) :
    lastD (splitSlash (xs ++ '/' :: ys)) = lastD (splitSlash ys) := by
  induction xs with
  | nil =>
    rw [List.nil_append, splitSlash_cons_slash]
    exact lastD_cons_splitSlash [] ys
  | cons x xs' ih =>
    rw [List.cons_append]
    by_cases hx : x = '/'
    · subst hx
      rw [splitSlash_cons_slash, lastD_cons_of_ne_nil (splitSlash_ne_nil _)]
      exact ih
    · cases hs : splitSlash (xs' ++ '/' :: ys) with
      | nil => exact absurd hs (splitSlash_ne_nil _)
      | cons s rest =>
        have hrest : rest ≠ [] := by
          have hlen := splitSlash_length (xs' ++ '/' :: ys)
          rw [hs] at hlen
          have hone : 1 ≤ countSlash (xs' ++ '/' :: ys) := by
            rw [countSlash_append, countSlash_cons_slash]
            omega
          simp only [List.length_cons] at hlen
          intro hnil
          rw [hnil] at hlen
          simp at hlen
          omega
        rw [splitSlash_cons_ne hx hs, lastD_cons_of_ne_nil hrest,
          ← lastD_cons_of_ne_nil (s := s) hrest, ← hs, ih]

lemma data_append (a b : String) : (a ++ b).data = a.data ++ b.data := rfl

lemma data_slash : "/".data = ['/'] := rfl

lemma mk_data (s : String) : String.mk s.data = s := rfl

lemma dirFinder_inside {dir name rest : String} {c : Char} (hslash : '/' ∉ name.data)
    (hne : name ≠ "") (hrest : rest.data.head? = some c) (hc : isLineTerm c = false) :
    dirFinder dir (dir ++ "/" ++ name ++ "/" ++ rest) = some (dir ++ "/" ++ name) := by
  have hnamene : name.data ≠ [] := by
    intro hh
    exact hne (congrArg String.mk hh)
  cases hr : rest.data with
  | nil =>
    rw [hr] at hrest
    exact absurd hrest (by simp)
  | cons c' cs =>
    rw [hr] at hrest
    have hcc : c' = c := by simpa using hrest
    subst hcc
    have hdata : (dir ++ "/" ++ name ++ "/" ++ rest).data
        = dir.data ++ '/' :: (name.data ++ '/' :: c' :: cs) := by
      simp [data_append, data_slash, hr]
    have hmatch := @matchAt_start dir.data name.data c' cs hslash hnamene hc
    unfold dirFinder
    rw [hdata, findFrom_of_matchAt hmatch]
    have : String.mk (dir.data ++ '/' :: name.data) = dir ++ "/" ++ name := by
      have : (dir ++ "/" ++ name).data = dir.data ++ '/' :: name.data := by
        simp [data_append, data_slash]
      rw [← this, mk_data]
    simp [this]

lemma lastSegment_concat {dir name : String} (hslash : '/' ∉ name.data) :
    lastSegment (dir ++ "/" ++ name) = name := by
  unfold lastSegment
  have hdata : (dir ++ "/" ++ name).data = dir.data ++ '/' :: name.data := by
    simp [data_append, data_slash]
  rw [hdata, lastD_splitSlash_append, splitSlash_no_slash hslash]
  simp [lastD, mk_data]

lemma lastSegment_no_slash {name : String} (hslash : '/' ∉ name.data) :
    lastSegment name = name := by
  unfold lastSegment
  rw [splitSlash_no_slash hslash]
  simp [lastD, mk_data]

lemma foldl_invariant {α β : Type} (step : α → β → α) (P : α → Prop)
    (hstep : ∀ acc b, P acc → P (step acc b)) :
    ∀ (l : List β) (acc : α), P acc → P (l.foldl step acc) := by
  intro l
  induction l with
  | nil => intro acc h; exact h
  | cons b bs ih => intro acc h; exact ih _ (hstep _ _ h)

lemma foldl_effect {α β : Type} (step : α → β → α) (P : α → Prop)
    (hstep : ∀ acc b, P acc → P (step acc b)) {f : β} {l : List β}
    (hf : f ∈ l) (heff : ∀ acc, P (step acc f)) :
    ∀ acc, P (l.foldl step acc) := by
  induction l with
  | nil => cases hf
  | cons b bs ih =>
    intro acc
    rcases List.mem_cons.mp hf with h | h
    · subst h
      exact foldl_invariant step P hstep bs _ (heff acc)
    · exact ih h _

lemma mem_addUnique_self (l : List String) (x : String) : x ∈ addUnique l x := by
  unfold addUnique
  split
  · assumption
  · simp

lemma mem_addUnique_of_mem {l : List String} {y : String} (x : String) (h : y ∈ l) :
    y ∈ addUnique l x := by
  unfold addUnique
  split
  · exact h
  · exact List.mem_append_left _ h

lemma mem_addUnique_iff {l : List String} {x y : String} :
    y ∈ addUnique l x ↔ y ∈ l ∨ y = x := by
  unfold addUnique
  split
  case isTrue hx => exact ⟨Or.inl, fun h => h.elim id (fun he => he ▸ hx)⟩
  case isFalse hx => simp

lemma nodup_addUnique {l : List String} (x : String) (h : l.Nodup) :
    (addUnique l x).Nodup := by
  unfold addUnique
  split
  case isTrue => exact h
  case isFalse hx => simpa [List.nodup_append, h] using hx

lemma mem_foldl_addUnique (f : String → String) (as : List String) {s : List String}
    {y : String} (h : y ∈ s) : y ∈ as.foldl (fun l a => addUnique l (f a)) s :=
  foldl_invariant _ (fun l => y ∈ l) (fun _ b hy => mem_addUnique_of_mem (f b) hy) as s h

lemma mem_foldl_addUnique_of (f : String → String) {as : List String} {a : String}
    (h : a ∈ as) (s : List String) : f a ∈ as.foldl (fun l a => addUnique l (f a)) s :=
  foldl_effect _ (fun l => f a ∈ l) (fun _ b hy => mem_addUnique_of_mem (f b) hy) h
    (fun acc => mem_addUnique_self acc (f a)) s

lemma nodup_foldl_addUnique (f : String → String) (as : List String) {s : List String}
    (h : s.Nodup) : (as.foldl (fun l a => addUnique l (f a)) s).Nodup :=
  foldl_invariant _ List.Nodup (fun _ b hy => nodup_addUnique (f b) hy) as s h

lemma fanoutStep_apps_mono {acc : Accum} {y : String} (allApps allLibs : List String)
    (p : String) (h : y ∈ acc.apps) : y ∈ (fanoutStep allApps allLibs acc p).apps := by
  unfold fanoutStep
  by_cases hpA : p ∈ allApps <;> by_cases hpL : p ∈ allLibs <;>
    simp [hpA, hpL, mem_addUnique_of_mem, h]

lemma fanoutStep_libs_mono {acc : Accum} {y : String} (allApps allLibs : List String)
    (p : String) (h : y ∈ acc.libs) : y ∈ (fanoutStep allApps allLibs acc p).libs := by
  unfold fanoutStep
  by_cases hpA : p ∈ allApps <;> by_cases hpL : p ∈ allLibs <;>
    simp [hpA, hpL, mem_addUnique_of_mem, h]

lemma fanoutStep_impl (allApps allLibs : List String) (acc : Accum) (p : String) :
    (fanoutStep allApps allLibs acc p).implicitDependencies = acc.implicitDependencies := by
  unfold fanoutStep
  by_cases hpA : p ∈ allApps <;> by_cases hpL : p ∈ allLibs <;> simp [hpA, hpL]

lemma fanoutStep_apps_of_mem {allApps : List String} {p : String} (allLibs : List String)
    (acc : Accum) (h : p ∈ allApps) :
    lastSegment p ∈ (fanoutStep allApps allLibs acc p).apps := by
  unfold fanoutStep
  by_cases hpL : p ∈ allLibs <;> simp [h, hpL, mem_addUnique_self]

lemma fanoutStep_libs_of_mem {allLibs : List String} {p : String} (allApps : List String)
    (acc : Accum) (h : p ∈ allLibs) :
    lastSegment p ∈ (fanoutStep allApps allLibs acc p).libs := by
  unfold fanoutStep
  by_cases hpA : p ∈ allApps <;> simp [h, hpA, mem_addUnique_self]

lemma fanoutStep_nodup {acc : Accum} (allApps allLibs : List String) (p : String)
    (h1 : acc.apps.Nodup) (h2 : acc.libs.Nodup) :
    (fanoutStep allApps allLibs acc p).apps.Nodup ∧
    (fanoutStep allApps allLibs acc p).libs.Nodup := by
  unfold fanoutStep
  by_cases hpA : p ∈ allApps <;> by_cases hpL : p ∈ allLibs <;>
    simp [hpA, hpL, nodup_addUnique, h1, h2]

lemma applyImplicitRule_apps_mono {acc : Accum} {y : String} (allApps allLibs : List String)
    (deps : List ImplicitDep) (file : String) (h : y ∈ acc.apps) :
    y ∈ (applyImplicitRule allApps allLibs deps file acc).apps := by
  unfold applyImplicitRule
  cases hfind : deps.find? (fun d => d.file = some file) with
  | none => exact h
  | some d => exact mem_foldl_addUnique _ allApps h

lemma applyImplicitRule_libs_mono {acc : Accum} {y : String} (allApps allLibs : List String)
    (deps : List ImplicitDep) (file : String) (h : y ∈ acc.libs) :
    y ∈ (applyImplicitRule allApps allLibs deps file acc).libs := by
  unfold applyImplicitRule
  cases hfind : deps.find? (fun d => d.file = some file) with
  | none => exact h
  | some d => exact mem_foldl_addUnique _ allLibs h

lemma applyImplicitRule_impl_mono {acc : Accum} {y : String} (allApps allLibs : List String)
    (deps : List ImplicitDep) (file : String) (h : y ∈ acc.implicitDependencies) :
    y ∈ (applyImplicitRule allApps allLibs deps file acc).implicitDependencies := by
  unfold applyImplicitRule
  cases hfind : deps.find? (fun d => d.file = some file) with
  | none => exact h
  | some d => exact List.mem_append_left _ h

lemma applyImplicitRule_hit {deps : List ImplicitDep} {file : String} {d : ImplicitDep}
    (allApps allLibs : List String) (acc : Accum)
    (hfind : deps.find? (fun d => d.file = some file) = some d) :
    file ∈ (applyImplicitRule allApps allLibs deps file acc).implicitDependencies ∧
    (∀ a ∈ allApps, lastSegment a ∈ (applyImplicitRule allApps allLibs deps file acc).apps) ∧
    (∀ l ∈ allLibs, lastSegment l ∈ (applyImplicitRule allApps allLibs deps file acc).libs) := by
  have hfile : d.file = some file := by
    have := List.find?_some hfind
    simpa using this
  unfold applyImplicitRule
  rw [hfind]
  refine ⟨?_, ?_, ?_⟩
  · simp [hfile]
  · intro a ha
    exact mem_foldl_addUnique_of _ ha _
  · intro l hl
    exact mem_foldl_addUnique_of _ hl _

lemma applyFanout_apps_mono {acc : Accum} {y : String} (allApps allLibs : List String)
    (deps : List ImplicitDep) (libName : String) (h : y ∈ acc.apps) :
    y ∈ (applyFanout allApps allLibs deps libName acc).apps := by
  unfold applyFanout
  cases hfind : deps.find? (fun d => d.key = some libName) with
  | none => exact h
  | some entry =>
    exact foldl_invariant _ (fun a : Accum => y ∈ a.apps)
      (fun a p hy => fanoutStep_apps_mono allApps allLibs p hy) entry.projects _ h

lemma applyFanout_libs_mono {acc : Accum} {y : String} (allApps allLibs : List String)
    (deps : List ImplicitDep) (libName : String) (h : y ∈ acc.libs) :
    y ∈ (applyFanout allApps allLibs deps libName acc).libs := by
  unfold applyFanout
  cases hfind : deps.find? (fun d => d.key = some libName) with
  | none => exact h
  | some entry =>
    exact foldl_invariant _ (fun a : Accum => y ∈ a.libs)
      (fun a p hy => fanoutStep_libs_mono allApps allLibs p hy) entry.projects _ h

lemma applyFanout_impl_mono {acc : Accum} {y : String} (allApps allLibs : List String)
    (deps : List ImplicitDep) (libName : String) (h : y ∈ acc.implicitDependencies) :
    y ∈ (applyFanout allApps allLibs deps libName acc).implicitDependencies := by
  unfold applyFanout
  cases hfind : deps.find? (fun d => d.key = some libName) with
  | none => exact h
  | some entry =>
    refine foldl_invariant _ (fun a : Accum => y ∈ a.implicitDependencies) ?_ entry.projects _ h
    intro a p hy
    rw [fanoutStep_impl]
    exact hy

lemma applyFanout_effect {deps : List ImplicitDep} {entry : ImplicitDep} {p libName : String}
    (allApps allLibs : List String) (acc : Accum)
    (hfind : deps.find? (fun d => d.key = some libName) = some entry)
    (hp : p ∈ entry.projects) :
    (p ∈ allApps → lastSegment p ∈ (applyFanout allApps allLibs deps libName acc).apps) ∧
    (p ∈ allLibs → lastSegment p ∈ (applyFanout allApps allLibs deps libName acc).libs) := by
  unfold applyFanout
  rw [hfind]
  constructor
  · intro hpA
    exact foldl_effect _ (fun a : Accum => lastSegment p ∈ a.apps)
      (fun a q hy => fanoutStep_apps_mono allApps allLibs q hy) hp
      (fun a => fanoutStep_apps_of_mem allLibs a hpA) _
  · intro hpL
    exact foldl_effect _ (fun a : Accum => lastSegment p ∈ a.libs)
      (fun a q hy => fanoutStep_libs_mono allApps allLibs q hy) hp
      (fun a => fanoutStep_libs_of_mem allApps a hpL) _

lemma applyLibRule_apps_mono {acc : Accum} {y : String} (libsDir : String)
    (allApps allLibs : List String) (deps : List ImplicitDep) (file : String)
    (h : y ∈ acc.apps) :
    y ∈ (applyLibRule libsDir allApps allLibs deps file acc).apps := by
  unfold applyLibRule
  cases hdir : dirFinder libsDir file with
  | none => exact h
  | some lib => exact applyFanout_apps_mono allApps allLibs deps _ h

lemma applyLibRule_libs_mono {acc : Accum} {y : String} (libsDir : String)
    (allApps allLibs : List String) (deps : List ImplicitDep) (file : String)
    (h : y ∈ acc.libs) :
    y ∈ (applyLibRule libsDir allApps allLibs deps file acc).libs := by
  unfold applyLibRule
  cases hdir : dirFinder libsDir file with
  | none => exact h
  | some lib =>
    exact applyFanout_libs_mono allApps allLibs deps _ (mem_addUnique_of_mem _ h)

lemma applyLibRule_impl_mono {acc : Accum} {y : String} (libsDir : String)
    (allApps allLibs : List String) (deps : List ImplicitDep) (file : String)
    (h : y ∈ acc.implicitDependencies) :
    y ∈ (applyLibRule libsDir allApps allLibs deps file acc).implicitDependencies := by
  unfold applyLibRule
  cases hdir : dirFinder libsDir file with
  | none => exact h
  | some lib => exact applyFanout_impl_mono allApps allLibs deps _ h

lemma applyLibRule_hit {libsDir file lib : String} (allApps allLibs : List String)
    (deps : List ImplicitDep) (acc : Accum) (hdir : dirFinder libsDir file = some lib) :
    lastSegment lib ∈ (applyLibRule libsDir allApps allLibs deps file acc).libs := by
  unfold applyLibRule
  rw [hdir]
  exact applyFanout_libs_mono allApps allLibs deps _ (mem_addUnique_self _ _)

lemma applyLibRule_fanout {libsDir file lib : String} {deps : List ImplicitDep}
    {entry : ImplicitDep} {p : String} (allApps allLibs : List String) (acc : Accum)
    (hdir : dirFinder libsDir file = some lib)
    (hfind : deps.find? (fun d => d.key = some (lastSegment lib)) = some entry)
    (hp : p ∈ entry.projects) :
    (p ∈ allApps → lastSegment p ∈ (applyLibRule libsDir allApps allLibs deps file acc).apps) ∧
    (p ∈ allLibs → lastSegment p ∈ (applyLibRule libsDir allApps allLibs deps file acc).libs) := by
  unfold applyLibRule
  rw [hdir]
  exact applyFanout_effect allApps allLibs _ hfind hp

lemma applyAppRule_apps_mono {acc : Accum} {y : String} (appsDir file : String)
    (h : y ∈ acc.apps) : y ∈ (applyAppRule appsDir file acc).apps := by
  unfold applyAppRule
  cases hdir : dirFinder appsDir file with
  | none => exact h
  | some app => exact mem_addUnique_of_mem _ h

lemma applyAppRule_libs_eq (appsDir file : String) (acc : Accum) :
    (applyAppRule appsDir file acc).libs = acc.libs := by
  unfold applyAppRule
  cases hdir : dirFinder appsDir file <;> rfl

lemma applyAppRule_impl_eq (appsDir file : String) (acc : Accum) :
    (applyAppRule appsDir file acc).implicitDependencies = acc.implicitDependencies := by
  unfold applyAppRule
  cases hdir : dirFinder appsDir file <;> rfl

lemma applyAppRule_hit {appsDir file app : String} (acc : Accum)
    (hdir : dirFinder appsDir file = some app) :
    lastSegment app ∈ (applyAppRule appsDir file acc).apps := by
  unfold applyAppRule
  rw [hdir]
  exact mem_addUnique_self _ _

lemma getChangesStep_apps_mono {acc : Accum} {y : String} (appsDir libsDir : String)
    (allApps allLibs : List String) (deps : List ImplicitDep) (file : String)
    (h : y ∈ acc.apps) :
    y ∈ (getChangesStep appsDir libsDir allApps allLibs deps acc file).apps :=
  applyAppRule_apps_mono appsDir file
    (applyLibRule_apps_mono libsDir allApps allLibs deps file
      (applyImplicitRule_apps_mono allApps allLibs deps file h))

lemma getChangesStep_libs_mono {acc : Accum} {y : String} (appsDir libsDir : String)
    (allApps allLibs : List String) (deps : List ImplicitDep) (file : String)
    (h : y ∈ acc.libs) :
    y ∈ (getChangesStep appsDir libsDir allApps allLibs deps acc file).libs := by
  unfold getChangesStep
  rw [applyAppRule_libs_eq]
  exact applyLibRule_libs_mono libsDir allApps allLibs deps file
    (applyImplicitRule_libs_mono allApps allLibs deps file h)

lemma getChangesStep_impl_mono {acc : Accum} {y : String} (appsDir libsDir : String)
    (allApps allLibs : List String) (deps : List ImplicitDep) (file : String)
    (h : y ∈ acc.implicitDependencies) :
    y ∈ (getChangesStep appsDir libsDir allApps allLibs deps acc file).implicitDependencies := by
  unfold getChangesStep
  rw [applyAppRule_impl_eq]
  exact applyLibRule_impl_mono libsDir allApps allLibs deps file
    (applyImplicitRule_impl_mono allApps allLibs deps file h)

lemma getChangesStep_implicit_hit {deps : List ImplicitDep} {file : String}
    {d : ImplicitDep} (appsDir libsDir : String) (allApps allLibs : List String)
    (acc : Accum) (hfind : deps.find? (fun d => d.file = some file) = some d) :
    file ∈ (getChangesStep appsDir libsDir allApps allLibs deps acc file).implicitDependencies ∧
    (∀ a ∈ allApps,
      lastSegment a ∈ (getChangesStep appsDir libsDir allApps allLibs deps acc file).apps) ∧
    (∀ l ∈ allLibs,
      lastSegment l ∈ (getChangesStep appsDir libsDir allApps allLibs deps acc file).libs) := by
  obtain ⟨h1, h2, h3⟩ := applyImplicitRule_hit allApps allLibs acc hfind
  unfold getChangesStep
  refine ⟨?_, ?_, ?_⟩
  · rw [applyAppRule_impl_eq]
    exact applyLibRule_impl_mono libsDir allApps allLibs deps file h1
  · intro a ha
    exact applyAppRule_apps_mono appsDir file
      (applyLibRule_apps_mono libsDir allApps allLibs deps file (h2 a ha))
  · intro l hl
    rw [applyAppRule_libs_eq]
    exact applyLibRule_libs_mono libsDir allApps allLibs deps file (h3 l hl)

lemma getChangesStep_lib_hit {libsDir file lib : String} (appsDir : String)
    (allApps allLibs : List String) (deps : List ImplicitDep) (acc : Accum)
    (hdir : dirFinder libsDir file = some lib) :
    lastSegment lib ∈ (getChangesStep appsDir libsDir allApps allLibs deps acc file).libs := by
  unfold getChangesStep
  rw [applyAppRule_libs_eq]
  exact applyLibRule_hit allApps allLibs deps _ hdir

lemma getChangesStep_fanout {libsDir file lib : String} {deps : List ImplicitDep}
    {entry : ImplicitDep} {p : String} (appsDir : String) (allApps allLibs : List String)
    (acc : Accum) (hdir : dirFinder libsDir file = some lib)
    (hfind : deps.find? (fun d => d.key = some (lastSegment lib)) = some entry)
    (hp : p ∈ entry.projects) :
    (p ∈ allApps →
      lastSegment p ∈ (getChangesStep appsDir libsDir allApps allLibs deps acc file).apps) ∧
    (p ∈ allLibs →
      lastSegment p ∈ (getChangesStep appsDir libsDir allApps allLibs deps acc file).libs) := by
  obtain ⟨h1, h2⟩ := applyLibRule_fanout allApps allLibs
    (applyImplicitRule allApps allLibs deps file acc) hdir hfind hp
  unfold getChangesStep
  constructor
  · intro hpA
    exact applyAppRule_apps_mono appsDir file (h1 hpA)
  · intro hpL
    rw [applyAppRule_libs_eq]
    exact h2 hpL

lemma getChangesStep_app_hit {appsDir file app : String} (libsDir : String)
    (allApps allLibs : List String) (deps : List ImplicitDep) (acc : Accum)
    (hdir : dirFinder appsDir file = some app) :
    lastSegment app ∈ (getChangesStep appsDir libsDir allApps allLibs deps acc file).apps := by
  unfold getChangesStep
  exact applyAppRule_hit _ hdir

lemma mem_getChanges_apps {appsDir libsDir file x : String}
    {allApps allLibs ignore : List String} {deps : List ImplicitDep}
    {changedFiles : List String} (hf : file ∈ changedFiles)
    (heff : ∀ acc, x ∈ (getChangesStep appsDir libsDir allApps allLibs deps acc file).apps)
    (hig : x ∉ ignore) :
    x ∈ (getChanges appsDir libsDir allApps allLibs deps changedFiles ignore).apps := by
  have hmem : x ∈ (changedFiles.foldl (getChangesStep appsDir libsDir allApps allLibs deps)
      { apps := [], libs := [], implicitDependencies := [] }).apps :=
    foldl_effect _ (fun a : Accum => x ∈ a.apps)
      (fun a f hy => getChangesStep_apps_mono appsDir libsDir allApps allLibs deps f hy)
      hf heff _
  unfold getChanges
  exact List.mem_filter.mpr ⟨hmem, by simpa using hig⟩

lemma mem_getChanges_libs {appsDir libsDir file x : String}
    {allApps allLibs ignore : List String} {deps : List ImplicitDep}
    {changedFiles : List String} (hf : file ∈ changedFiles)
    (heff : ∀ acc, x ∈ (getChangesStep appsDir libsDir allApps allLibs deps acc file).libs) :
    x ∈ (getChanges appsDir libsDir allApps allLibs deps changedFiles ignore).libs := by
  have hmem : x ∈ (changedFiles.foldl (getChangesStep appsDir libsDir allApps allLibs deps)
      { apps := [], libs := [], implicitDependencies := [] }).libs :=
    foldl_effect _ (fun a : Accum => x ∈ a.libs)
      (fun a f hy => getChangesStep_libs_mono appsDir libsDir allApps allLibs deps f hy)
      hf heff _
  exact hmem

lemma mem_getChanges_impl {appsDir libsDir file x : String}
    {allApps allLibs ignore : List String} {deps : List ImplicitDep}
    {changedFiles : List String} (hf : file ∈ changedFiles)
    (heff : ∀ acc,
      x ∈ (getChangesStep appsDir libsDir allApps allLibs deps acc file).implicitDependencies) :
    x ∈ (getChanges appsDir libsDir allApps allLibs deps changedFiles ignore).implicitDependencies := by
  have hmem : x ∈ (changedFiles.foldl (getChangesStep appsDir libsDir allApps allLibs deps)
      { apps := [], libs := [], implicitDependencies := [] }).implicitDependencies :=
    foldl_effect _ (fun a : Accum => x ∈ a.implicitDependencies)
      (fun a f hy => getChangesStep_impl_mono appsDir libsDir allApps allLibs deps f hy)
      hf heff _
  exact hmem

lemma applyImplicitRule_nodup {acc : Accum} (allApps allLibs : List String)
    (deps : List ImplicitDep) (file : String) (h1 : acc.apps.Nodup) (h2 : acc.libs.Nodup) :
    (applyImplicitRule allApps allLibs deps file acc).apps.Nodup ∧
    (applyImplicitRule allApps allLibs deps file acc).libs.Nodup := by
  unfold applyImplicitRule
  cases hfind : deps.find? (fun d => d.file = some file) with
  | none => exact ⟨h1, h2⟩
  | some d => exact ⟨nodup_foldl_addUnique _ allApps h1, nodup_foldl_addUnique _ allLibs h2⟩

lemma applyFanout_nodup {acc : Accum} (allApps allLibs : List String)
    (deps : List ImplicitDep) (libName : String) (h1 : acc.apps.Nodup)
    (h2 : acc.libs.Nodup) :
    (applyFanout allApps allLibs deps libName acc).apps.Nodup ∧
    (applyFanout allApps allLibs deps libName acc).libs.Nodup := by
  unfold applyFanout
  cases hfind : deps.find? (fun d => d.key = some libName) with
  | none => exact ⟨h1, h2⟩
  | some entry =>
    exact foldl_invariant _ (fun a : Accum => a.apps.Nodup ∧ a.libs.Nodup)
      (fun a p hy => fanoutStep_nodup allApps allLibs p hy.1 hy.2) entry.projects _ ⟨h1, h2⟩

lemma applyLibRule_nodup {acc : Accum} (libsDir : String) (allApps allLibs : List String)
    (deps : List ImplicitDep) (file : String) (h1 : acc.apps.Nodup) (h2 : acc.libs.Nodup) :
    (applyLibRule libsDir allApps allLibs deps file acc).apps.Nodup ∧
    (applyLibRule libsDir allApps allLibs deps file acc).libs.Nodup := by
  unfold applyLibRule
  cases hdir : dirFinder libsDir file with
  | none => exact ⟨h1, h2⟩
  | some lib => exact applyFanout_nodup allApps allLibs deps _ h1 (nodup_addUnique _ h2)

lemma applyAppRule_nodup {acc : Accum} (appsDir file : String) (h1 : acc.apps.Nodup)
    (h2 : acc.libs.Nodup) :
    (applyAppRule appsDir file acc).apps.Nodup ∧ (applyAppRule appsDir file acc).libs.Nodup := by
  unfold applyAppRule
  cases hdir : dirFinder appsDir file with
  | none => exact ⟨h1, h2⟩
  | some app => exact ⟨nodup_addUnique _ h1, h2⟩

lemma getChangesStep_nodup {acc : Accum} (appsDir libsDir : String)
    (allApps allLibs : List String) (deps : List ImplicitDep) (file : String)
    (h : acc.apps.Nodup ∧ acc.libs.Nodup) :
    (getChangesStep appsDir libsDir allApps allLibs deps acc file).apps.Nodup ∧
    (getChangesStep appsDir libsDir allApps allLibs deps acc file).libs.Nodup := by
  unfold getChangesStep
  obtain ⟨ha, hb⟩ := applyImplicitRule_nodup allApps allLibs deps file h.1 h.2
  obtain ⟨hc, hd⟩ := applyLibRule_nodup libsDir allApps allLibs deps file ha hb
  exact applyAppRule_nodup appsDir file hc hd

lemma applyImplicitRule_no_hit {deps : List ImplicitDep} {file : String}
    (allApps allLibs : List String) (acc : Accum)
    (hfind : deps.find? (fun d => d.file = some file) = none) :
    applyImplicitRule allApps allLibs deps file acc = acc := by
  unfold applyImplicitRule
  rw [hfind]

lemma applyLibRule_no_hit {libsDir file : String} (allApps allLibs : List String)
    (deps : List ImplicitDep) (acc : Accum) (hdir : dirFinder libsDir file = none) :
    applyLibRule libsDir allApps allLibs deps file acc = acc := by
  unfold applyLibRule
  rw [hdir]

lemma applyAppRule_no_hit {appsDir file : String} (acc : Accum)
    (hdir : dirFinder appsDir file = none) : applyAppRule appsDir file acc = acc := by
  unfold applyAppRule
  rw [hdir]

lemma countSlash_eq_zero {cs : List Char} (h : '/' ∉ cs) : countSlash cs = 0 := by
  unfold countSlash
  rw [List.countP_eq_zero]
  intro c hc
  simp only [decide_eq_true_eq]
  intro he
  exact h (he ▸ hc)

/-- Claim C1 counterexample: the claim says every name in the ignore list
is absent from the returned libs list, but getChanges filters the ignore
list out of apps only; with ignore containing core and a changed file
inside libs/core, core is still returned in libs. -/
theorem c1_counterexample :
    "core" ∈ (["core"] : List String) ∧
    "core" ∈ (getChanges "apps" "libs" [] [] [] ["libs/core/x.ts"] ["core"]).libs := by
  decide

/-- Claim C1 as amended: the ignore list is applied by exact name equality
only to the top-level apps output, after all propagation has completed; the
libs output and the implicitDependencies output are returned unfiltered,
and no name is removed during propagation (running with an ignore list
equals running with none and filtering apps at the end). -/
theorem c1_ignore_filters_only_apps (appsDir libsDir : String)
    (allApps allLibs : List String) (deps : List ImplicitDep)
    (changedFiles ignore : List String) :
    (∀ n ∈ ignore,
      n ∉ (getChanges appsDir libsDir allApps allLibs deps changedFiles ignore).apps) ∧
    (getChanges appsDir libsDir allApps allLibs deps changedFiles ignore).apps
      = ((getChanges appsDir libsDir allApps allLibs deps changedFiles []).apps.filter
          (fun n => decide (n ∉ ignore))) ∧
    (getChanges appsDir libsDir allApps allLibs deps changedFiles ignore).libs
      = (getChanges appsDir libsDir allApps allLibs deps changedFiles []).libs ∧
    (getChanges appsDir libsDir allApps allLibs deps changedFiles ignore).implicitDependencies
      = (getChanges appsDir libsDir allApps allLibs deps changedFiles []).implicitDependencies := by
  refine ⟨?_, ?_, rfl, rfl⟩
  · intro n hn hmem
    have := (List.mem_filter.mp hmem).2
    simp only [decide_eq_true_eq] at this
    exact this hn
  · have hself : ∀ l : List String,
        l.filter (fun n => decide (n ∉ ([] : List String))) = l := by
      intro l
      apply List.filter_eq_self.mpr
      intro a _
      simp
    unfold getChanges
    dsimp only
    rw [hself]

/-- Claim C1 amendment witness at a concrete input: web is ignored and is
absent from the apps output. -/
theorem c1_ignore_filters_only_apps_witness :
    "web" ∈ (["web"] : List String) ∧
    "web" ∉ (getChanges "apps" "libs" [] [] [] ["apps/web/src/x.ts"] ["web"]).apps :=
  ⟨by decide,
    (c1_ignore_filters_only_apps "apps" "libs" [] [] [] ["apps/web/src/x.ts"] ["web"]).1
      "web" (by decide)⟩

/-- Claim C6: the path-to-project matcher is not anchored to the start of
the path; a file under vendor/apps/web is classified as belonging to app
web even though it does not start with the apps root. -/
theorem c6_matcher_unanchored :
    dirFinder "apps" "vendor/apps/web/x.ts" = some "apps/web" ∧
    "web" ∈ (getChanges "apps" "libs" [] [] [] ["vendor/apps/web/x.ts"] []).apps := by
  decide

/-- Claim C10: for every input, the returned apps list and the returned
libs list contain no duplicate names, because accumulation goes through
uniqueness-preserving set insertion and the final filter preserves
duplicate-freedom. -/
theorem c10_no_duplicates (appsDir libsDir : String) (allApps allLibs : List String)
    (deps : List ImplicitDep) (changedFiles ignore : List String) :
    (getChanges appsDir libsDir allApps allLibs deps changedFiles ignore).apps.Nodup ∧
    (getChanges appsDir libsDir allApps allLibs deps changedFiles ignore).libs.Nodup := by
  have hacc : ∀ acc : Accum, acc.apps.Nodup ∧ acc.libs.Nodup →
      ((changedFiles.foldl (getChangesStep appsDir libsDir allApps allLibs deps) acc).apps.Nodup ∧
       (changedFiles.foldl (getChangesStep appsDir libsDir allApps allLibs deps) acc).libs.Nodup) := by
    intro acc h
    exact foldl_invariant _ (fun a : Accum => a.apps.Nodup ∧ a.libs.Nodup)
      (fun a f hy => getChangesStep_nodup appsDir libsDir allApps allLibs deps f hy)
      changedFiles acc h
  obtain ⟨h1, h2⟩ := hacc { apps := [], libs := [], implicitDependencies := [] }
    ⟨List.nodup_nil, List.nodup_nil⟩
  exact ⟨List.Nodup.filter _ h1, h2⟩

/-- Claim C2: a changed file that exactly equals the recorded file of a
global implicit-dependency entry records that path in the returned
implicitDependencies and marks every known app and every known lib as
affected; a bare project name (one without a slash, as produced by the
directory listing) appears in apps unless ignored, and in libs
unconditionally since the source does not filter libs. -/
theorem c2_implicit_dependency_hit (appsDir libsDir file : String)
    (allApps allLibs ignore : List String) (deps : List ImplicitDep)
    (changedFiles : List String) (d : ImplicitDep) (hd : d ∈ deps)
    (hfile : d.file = some file) (hf : file ∈ changedFiles) :
    file ∈ (getChanges appsDir libsDir allApps allLibs deps
      changedFiles ignore).implicitDependencies ∧
    (∀ a ∈ allApps, '/' ∉ a.data → a ∉ ignore →
      a ∈ (getChanges appsDir libsDir allApps allLibs deps changedFiles ignore).apps) ∧
    (∀ l ∈ allLibs, '/' ∉ l.data →
      l ∈ (getChanges appsDir libsDir allApps allLibs deps changedFiles ignore).libs) := by
  have hsome : (deps.find? (fun x => x.file = some file)).isSome :=
    List.find?_isSome.mpr ⟨d, hd, by simp [hfile]⟩
  obtain ⟨d', hd'⟩ := Option.isSome_iff_exists.mp hsome
  refine ⟨?_, ?_, ?_⟩
  · exact mem_getChanges_impl hf (fun acc =>
      (getChangesStep_implicit_hit appsDir libsDir allApps allLibs acc hd').1)
  · intro a ha haslash hig
    refine mem_getChanges_apps hf (fun acc => ?_) hig
    have h := (getChangesStep_implicit_hit appsDir libsDir allApps allLibs acc hd').2.1 a ha
    rwa [lastSegment_no_slash haslash] at h
  · intro l hl hlslash
    refine mem_getChanges_libs hf (fun acc => ?_)
    have h := (getChangesStep_implicit_hit appsDir libsDir allApps allLibs acc hd').2.2 l hl
    rwa [lastSegment_no_slash hlslash] at h

/-- Claim C2 witness: the spec scenario with the global entry nx.json. -/
theorem c2_implicit_dependency_hit_witness :
    "nx.json" ∈ (getChanges "apps" "libs" ["web"] ["core"]
      [{ file := some "nx.json", key := none, projects := [] }]
      ["nx.json"] []).implicitDependencies ∧
    "web" ∈ (getChanges "apps" "libs" ["web"] ["core"]
      [{ file := some "nx.json", key := none, projects := [] }] ["nx.json"] []).apps ∧
    "core" ∈ (getChanges "apps" "libs" ["web"] ["core"]
      [{ file := some "nx.json", key := none, projects := [] }] ["nx.json"] []).libs := by
  have h := c2_implicit_dependency_hit "apps" "libs" "nx.json" ["web"] ["core"] []
    [{ file := some "nx.json", key := none, projects := [] }] ["nx.json"]
    { file := some "nx.json", key := none, projects := [] } (by decide) (by decide) (by decide)
  exact ⟨h.1, h.2.1 "web" (by decide) (by decide) (by decide),
    h.2.2 "core" (by decide) (by decide)⟩

/-- Claim C3: a changed file matching the lib-directory pattern marks the
matched library affected; when that library's name is the key of a fan-out
entry, each listed project that is a member of allApps is added to apps
(subject to the final ignore filter) and each member of allLibs is added
to libs; the closing concrete equation shows a listed project in neither
set (ghost) being silently dropped, reproducing the spec scenario. -/
theorem c3_lib_hit_fanout (appsDir libsDir file lib : String)
    (allApps allLibs ignore : List String) (deps : List ImplicitDep)
    (changedFiles : List String) (hf : file ∈ changedFiles)
    (hdir : dirFinder libsDir file = some lib) :
    lastSegment lib ∈
      (getChanges appsDir libsDir allApps allLibs deps changedFiles ignore).libs ∧
    (∀ entry, deps.find? (fun x => x.key = some (lastSegment lib)) = some entry →
      ∀ p ∈ entry.projects,
        (p ∈ allApps → '/' ∉ p.data → p ∉ ignore →
          p ∈ (getChanges appsDir libsDir allApps allLibs deps changedFiles ignore).apps) ∧
        (p ∈ allLibs → '/' ∉ p.data →
          p ∈ (getChanges appsDir libsDir allApps allLibs deps changedFiles ignore).libs)) ∧
    getChanges "apps" "libs" ["web", "admin"] ["core"]
      [{ file := none, key := some "core", projects := ["web", "admin", "ghost"] }]
      ["libs/core/src/util.ts"] []
      = { apps := ["web", "admin"], libs := ["core"], implicitDependencies := [] } := by
  refine ⟨?_, ?_, by decide⟩
  · exact mem_getChanges_libs hf (fun acc =>
      getChangesStep_lib_hit appsDir allApps allLibs deps acc hdir)
  · intro entry hfind p hp
    constructor
    · intro hpA hpslash hig
      refine mem_getChanges_apps hf (fun acc => ?_) hig
      have h := (getChangesStep_fanout appsDir allApps allLibs acc hdir hfind hp).1 hpA
      rwa [lastSegment_no_slash hpslash] at h
    · intro hpL hpslash
      refine mem_getChanges_libs hf (fun acc => ?_)
      have h := (getChangesStep_fanout appsDir allApps allLibs acc hdir hfind hp).2 hpL
      rwa [lastSegment_no_slash hpslash] at h

/-- Claim C3 witness: the spec fan-out scenario, with core fanning out to
web and admin. -/
theorem c3_lib_hit_fanout_witness :
    "core" ∈ (getChanges "apps" "libs" ["web", "admin"] ["core"]
      [{ file := none, key := some "core", projects := ["web", "admin", "ghost"] }]
      ["libs/core/src/util.ts"] []).libs ∧
    "web" ∈ (getChanges "apps" "libs" ["web", "admin"] ["core"]
      [{ file := none, key := some "core", projects := ["web", "admin", "ghost"] }]
      ["libs/core/src/util.ts"] []).apps := by
  have h := c3_lib_hit_fanout "apps" "libs" "libs/core/src/util.ts" "libs/core"
    ["web", "admin"] ["core"] []
    [{ file := none, key := some "core", projects := ["web", "admin", "ghost"] }]
    ["libs/core/src/util.ts"] (by decide) (by decide)
  have e1 : lastSegment "libs/core" = "core" := by decide
  refine ⟨?_, ?_⟩
  · have h1 := h.1
    rwa [e1] at h1
  · have h2 := (h.2.1 { file := none, key := some "core", projects := ["web", "admin", "ghost"] }
      (by rw [e1]; decide) "web" (by decide)).1 (by decide) (by decide) (by decide)
    exact h2

/-- Claim C4: a changed file strictly inside a first-level subdirectory of
the apps root, appsDir/name/rest with the apps root free of regex
metacharacters (the regime where the source's constructed pattern matches
the root literally), name a bare directory name, and a trailing part
whose first character is not an ECMAScript line terminator (which the
regex dot cannot match), puts name into the returned apps set unless
name is in the ignore list. -/
theorem c4_app_dir_file (appsDir libsDir name rest : String) (c : Char)
    (allApps allLibs ignore : List String) (deps : List ImplicitDep)
    (changedFiles : List String) (hAlit : regexLiteral appsDir)
    (hslash : '/' ∉ name.data) (hne : name ≠ "")
    (hrest : rest.data.head? = some c) (hc : isLineTerm c = false)
    (hf : (appsDir ++ "/" ++ name ++ "/" ++ rest) ∈ changedFiles)
    (hig : name ∉ ignore) :
    name ∈ (getChanges appsDir libsDir allApps allLibs deps changedFiles ignore).apps := by
  have hdir : dirFinder appsDir (appsDir ++ "/" ++ name ++ "/" ++ rest)
      = some (appsDir ++ "/" ++ name) :=
    dirFinder_inside hslash hne hrest hc
  refine mem_getChanges_apps hf (fun acc => ?_) hig
  have h := getChangesStep_app_hit libsDir allApps allLibs deps acc hdir
  rwa [lastSegment_concat hslash] at h

/-- Claim C4 witness: the spec scenario file apps/web/src/index.ts puts
web into the apps output. -/
theorem c4_app_dir_file_witness :
    "web" ∈ (getChanges "apps" "libs" [] [] [] ["apps/web/src/index.ts"] []).apps :=
  c4_app_dir_file "apps" "libs" "web" "src/index.ts" 's' [] [] [] [] ["apps/web/src/index.ts"]
    (by decide) (by decide) (by decide) (by decide) (by decide) (by decide) (by decide)

/-- Claim C5: a changed file whose path is exactly rootDir/name with no
further component never matches the path-classification pattern, for any
root directory that new RegExp matches literally (no regex
metacharacters, the only regime in which the constructed pattern is the
literal one this embedding models); with both workspace roots literal
and bare, and no implicit-dependency entry recording that path, such a
single file produces an entirely empty result: no app or lib is marked
affected by that file alone. -/
theorem c5_root_level_file_no_match (appsDir libsDir name : String)
    (allApps allLibs ignore : List String) (deps : List ImplicitDep)
    (hAlit : regexLiteral appsDir) (hLlit : regexLiteral libsDir)
    (hA : '/' ∉ appsDir.data) (hn : '/' ∉ name.data)
    (hdep : ∀ d ∈ deps, d.file ≠ some (appsDir ++ "/" ++ name)) :
    (∀ dir : String, regexLiteral dir → dirFinder dir (dir ++ "/" ++ name) = none) ∧
    getChanges appsDir libsDir allApps allLibs deps [appsDir ++ "/" ++ name] ignore
      = { apps := [], libs := [], implicitDependencies := [] } := by
  have hdata : ∀ dir : String, (dir ++ "/" ++ name).data = dir.data ++ '/' :: name.data := by
    intro dir
    simp [data_append, data_slash]
  have hcount : ∀ dir : String,
      countSlash (dir ++ "/" ++ name).data = countSlash dir.data + 1 := by
    intro dir
    rw [hdata dir, countSlash_append]
    have h1 : countSlash ('/' :: name.data) = countSlash name.data + 1 :=
      countSlash_cons_slash name.data
    rw [h1, countSlash_eq_zero hn]
  have hnone : ∀ dir : String, dirFinder dir (dir ++ "/" ++ name) = none := by
    intro dir
    apply dirFinder_eq_none_of_count
    rw [hcount dir]
    omega
  refine ⟨fun dir _ => hnone dir, ?_⟩
  have hfile : (appsDir ++ "/" ++ name).data = appsDir.data ++ '/' :: name.data := hdata appsDir
  have hlibnone : dirFinder libsDir (appsDir ++ "/" ++ name) = none := by
    apply dirFinder_eq_none_of_count
    rw [hcount appsDir, countSlash_eq_zero hA]
    omega
  have hfind : deps.find? (fun d => d.file = some (appsDir ++ "/" ++ name)) = none := by
    apply List.find?_eq_none.mpr
    intro d hd
    simpa using hdep d hd
  have hstep : getChangesStep appsDir libsDir allApps allLibs deps
      { apps := [], libs := [], implicitDependencies := [] } (appsDir ++ "/" ++ name)
      = { apps := [], libs := [], implicitDependencies := [] } := by
    unfold getChangesStep
    rw [applyImplicitRule_no_hit allApps allLibs _ hfind,
      applyLibRule_no_hit allApps allLibs deps _ hlibnone,
      applyAppRule_no_hit _ (hnone appsDir)]
  unfold getChanges
  rw [List.foldl_cons, hstep, List.foldl_nil]
  rfl

/-- Claim C5 witness: the file apps/web alone affects nothing. -/
theorem c5_root_level_file_no_match_witness :
    dirFinder "apps" ("apps" ++ "/" ++ "web") = none ∧
    getChanges "apps" "libs" ["web"] ["core"] [] ["apps" ++ "/" ++ "web"] []
      = { apps := [], libs := [], implicitDependencies := [] } := by
  have h := c5_root_level_file_no_match "apps" "libs" "web" ["web"] ["core"] [] []
    (by decide) (by decide) (by decide) (by decide) (by decide)
  exact ⟨h.1 "apps" (by decide), h.2⟩

/-- Claim C7: the three classification rules are evaluated independently
for each changed file with no short-circuiting; whichever of the three
conditions hold, the corresponding effects all appear in the final result
(names are added as their final path segment, and apps membership is
subject to the final ignore filter). -/
theorem c7_rules_independent (appsDir libsDir file : String)
    (allApps allLibs ignore : List String) (deps : List ImplicitDep)
    (changedFiles : List String) (hf : file ∈ changedFiles) :
    (∀ d, deps.find? (fun x => x.file = some file) = some d →
      file ∈ (getChanges appsDir libsDir allApps allLibs deps
        changedFiles ignore).implicitDependencies ∧
      (∀ a ∈ allApps, lastSegment a ∉ ignore →
        lastSegment a ∈ (getChanges appsDir libsDir allApps allLibs deps
          changedFiles ignore).apps) ∧
      (∀ l ∈ allLibs, lastSegment l ∈ (getChanges appsDir libsDir allApps allLibs deps
        changedFiles ignore).libs)) ∧
    (∀ lib, dirFinder libsDir file = some lib →
      lastSegment lib ∈ (getChanges appsDir libsDir allApps allLibs deps
        changedFiles ignore).libs ∧
      (∀ entry, deps.find? (fun x => x.key = some (lastSegment lib)) = some entry →
        ∀ p ∈ entry.projects,
          (p ∈ allApps → lastSegment p ∉ ignore →
            lastSegment p ∈ (getChanges appsDir libsDir allApps allLibs deps
              changedFiles ignore).apps) ∧
          (p ∈ allLibs → lastSegment p ∈ (getChanges appsDir libsDir allApps allLibs deps
            changedFiles ignore).libs))) ∧
    (∀ app, dirFinder appsDir file = some app → lastSegment app ∉ ignore →
      lastSegment app ∈ (getChanges appsDir libsDir allApps allLibs deps
        changedFiles ignore).apps) := by
  refine ⟨?_, ?_, ?_⟩
  · intro d hd
    refine ⟨?_, ?_, ?_⟩
    · exact mem_getChanges_impl hf (fun acc =>
        (getChangesStep_implicit_hit appsDir libsDir allApps allLibs acc hd).1)
    · intro a ha hig
      exact mem_getChanges_apps hf (fun acc =>
        (getChangesStep_implicit_hit appsDir libsDir allApps allLibs acc hd).2.1 a ha) hig
    · intro l hl
      exact mem_getChanges_libs hf (fun acc =>
        (getChangesStep_implicit_hit appsDir libsDir allApps allLibs acc hd).2.2 l hl)
  · intro lib hdir
    refine ⟨?_, ?_⟩
    · exact mem_getChanges_libs hf (fun acc =>
        getChangesStep_lib_hit appsDir allApps allLibs deps acc hdir)
    · intro entry hfind p hp
      constructor
      · intro hpA hig
        exact mem_getChanges_apps hf (fun acc =>
          (getChangesStep_fanout appsDir allApps allLibs acc hdir hfind hp).1 hpA) hig
      · intro hpL
        exact mem_getChanges_libs hf (fun acc =>
          (getChangesStep_fanout appsDir allApps allLibs acc hdir hfind hp).2 hpL)
  · intro app hdir hig
    exact mem_getChanges_apps hf (fun acc =>
      getChangesStep_app_hit libsDir allApps allLibs deps acc hdir) hig

/-- Claim C7 witness: one file that fires all three rules at once (it is a
global implicit-dependency file, lies inside the libs directory pattern
with a fan-out entry, and lies inside the apps directory pattern), with
every effect present in the result. -/
theorem c7_rules_independent_witness :
    "apps/web/libs/core/x.ts" ∈ (getChanges "apps" "libs" ["web", "m1"] ["core"]
      [{ file := some "apps/web/libs/core/x.ts", key := none, projects := [] },
       { file := none, key := some "core", projects := ["m1"] }]
      ["apps/web/libs/core/x.ts"] []).implicitDependencies ∧
    lastSegment "libs/core" ∈ (getChanges "apps" "libs" ["web", "m1"] ["core"]
      [{ file := some "apps/web/libs/core/x.ts", key := none, projects := [] },
       { file := none, key := some "core", projects := ["m1"] }]
      ["apps/web/libs/core/x.ts"] []).libs ∧
    lastSegment "m1" ∈ (getChanges "apps" "libs" ["web", "m1"] ["core"]
      [{ file := some "apps/web/libs/core/x.ts", key := none, projects := [] },
       { file := none, key := some "core", projects := ["m1"] }]
      ["apps/web/libs/core/x.ts"] []).apps ∧
    lastSegment "apps/web" ∈ (getChanges "apps" "libs" ["web", "m1"] ["core"]
      [{ file := some "apps/web/libs/core/x.ts", key := none, projects := [] },
       { file := none, key := some "core", projects := ["m1"] }]
      ["apps/web/libs/core/x.ts"] []).apps := by
  have h := c7_rules_independent "apps" "libs" "apps/web/libs/core/x.ts" ["web", "m1"]
    ["core"] []
    [{ file := some "apps/web/libs/core/x.ts", key := none, projects := [] },
     { file := none, key := some "core", projects := ["m1"] }]
    ["apps/web/libs/core/x.ts"] (by decide)
  have h1 := h.1 { file := some "apps/web/libs/core/x.ts", key := none, projects := [] }
    (by decide)
  have h2 := h.2.1 "libs/core" (by decide)
  have h3 := (h2.2 { file := none, key := some "core", projects := ["m1"] }
    (by decide) "m1" (by decide)).1 (by decide) (by decide)
  have h4 := h.2.2 "apps/web" (by decide) (by decide)
  exact ⟨h1.1, h2.1, h3, h4⟩

lemma getBaseAndHeadRefs_ok_ignore {ctx : ActionContext} {base head : String}
    {p : JsonParseResult} {r : Refs} (h : getBaseAndHeadRefs ctx base head p = Except.ok r) :
    r.ignore = parsedIgnoreOf p := by
  unfold getBaseAndHeadRefs at h
  split at h
  · dsimp only at h
    split at h
    · exact absurd h (by simp)
    · simp only [Except.ok.injEq] at h
      rw [← h]
  · split at h
    · dsimp only at h
      split at h
      · exact absurd h (by simp)
      · simp only [Except.ok.injEq] at h
        rw [← h]
    · split at h
      · dsimp only at h
        exact absurd h (by simp)
      · dsimp only at h
        split at h
        · exact absurd h (by simp)
        · simp only [Except.ok.injEq] at h
          rw [← h]

/-- Claim C8: for any event kind other than pull_request and push,
reference resolution fails with a MissingRefs error exactly when the
explicitly supplied base or head is empty; with both supplied it returns
exactly that pair (with the parsed ignore list), and on failure the
changed-file diff collaborator is never consulted, whatever it would have
returned. -/
theorem c8_manual_refs_required (ctx : ActionContext) (base head : String)
    (p : JsonParseResult) (h1 : ctx.eventName ≠ "pull_request")
    (h2 : ctx.eventName ≠ "push") :
    ((∃ e, getBaseAndHeadRefs ctx base head p = Except.error e)
      ↔ (base = "" ∨ head = "")) ∧
    (getBaseAndHeadRefs ctx base head p
        = Except.error (RefsError.missingRefsForEvent ctx.eventName)
      ↔ (base = "" ∨ head = "")) ∧
    (base ≠ "" → head ≠ "" →
      getBaseAndHeadRefs ctx base head p
        = Except.ok { base := base, head := head, ignore := parsedIgnoreOf p }) ∧
    (∀ diff, (base = "" ∨ head = "") →
      resolveThenDiff ctx base head p diff
        = Except.error (RefsError.missingRefsForEvent ctx.eventName)) := by
  by_cases hbh : base = "" ∨ head = ""
  · have hres : getBaseAndHeadRefs ctx base head p
        = Except.error (RefsError.missingRefsForEvent ctx.eventName) := by
      unfold getBaseAndHeadRefs
      rw [if_neg h1, if_neg h2, if_pos hbh]
    refine ⟨⟨fun _ => hbh, fun _ => ⟨_, hres⟩⟩, ⟨fun _ => hbh, fun _ => hres⟩, ?_, ?_⟩
    · intro hb hh
      exact absurd hbh (by simp [hb, hh])
    · intro diff _
      unfold resolveThenDiff
      rw [hres]
  · push_neg at hbh
    have hres : getBaseAndHeadRefs ctx base head p
        = Except.ok { base := base, head := head, ignore := parsedIgnoreOf p } := by
      unfold getBaseAndHeadRefs
      rw [if_neg h1, if_neg h2, if_neg (by simp [hbh.1, hbh.2])]
      show (if base = "" ∨ head = "" then _ else _) = _
      rw [if_neg (by simp [hbh.1, hbh.2])]
    refine ⟨⟨?_, fun hh => absurd hh (by simp [hbh.1, hbh.2])⟩,
      ⟨?_, fun hh => absurd hh (by simp [hbh.1, hbh.2])⟩, fun _ _ => hres, ?_⟩
    · rintro ⟨e, he⟩
      rw [hres] at he
      exact absurd he (by simp)
    · intro he
      rw [hres] at he
      exact absurd he (by simp)
    · intro diff hh
      exact absurd hh (by simp [hbh.1, hbh.2])

/-- Claim C8 witness: a workflow_dispatch event with a missing base fails
with MissingRefs, and with both refs supplied it returns them exactly. -/
theorem c8_manual_refs_required_witness :
    getBaseAndHeadRefs ⟨"workflow_dispatch", "", "", "", ""⟩ "" "abc" JsonParseResult.failure
      = Except.error (RefsError.missingRefsForEvent "workflow_dispatch") ∧
    getBaseAndHeadRefs ⟨"workflow_dispatch", "", "", "", ""⟩ "a" "b" JsonParseResult.failure
      = Except.ok { base := "a", head := "b", ignore := [] } := by
  constructor
  · exact (c8_manual_refs_required ⟨"workflow_dispatch", "", "", "", ""⟩ "" "abc"
      JsonParseResult.failure (by decide) (by decide)).2.1.mpr (Or.inl rfl)
  · exact (c8_manual_refs_required ⟨"workflow_dispatch", "", "", "", ""⟩ "a" "b"
      JsonParseResult.failure (by decide) (by decide)).2.2.1 (by decide) (by decide)

/-- Claim C9: parsing of the raw ignore input is best-effort and total;
when the JSON parse fails or yields a non-array value, resolution behaves
exactly as if an empty array had been parsed (same errors, same refs), and
any successful result carries the empty ignore list. -/
theorem c9_ignore_parse_soft (ctx : ActionContext) (base head : String)
    (p : JsonParseResult) (hp : ∀ items, p ≠ JsonParseResult.array items) :
    getBaseAndHeadRefs ctx base head p
      = getBaseAndHeadRefs ctx base head (JsonParseResult.array []) ∧
    (∀ r, getBaseAndHeadRefs ctx base head p = Except.ok r → r.ignore = []) := by
  have hpi : parsedIgnoreOf p = ([] : List String) := by
    cases p with
    | failure => rfl
    | array items => exact absurd rfl (hp items)
    | nonArrayValue => rfl
  constructor
  · unfold getBaseAndHeadRefs
    rw [hpi]
    rfl
  · intro r hr
    rw [getBaseAndHeadRefs_ok_ignore hr, hpi]

/-- Claim C9 witness: a push event with an unparseable ignore input still
resolves, yielding the payload refs and an empty ignore list. -/
theorem c9_ignore_parse_soft_witness :
    getBaseAndHeadRefs ⟨"push", "", "", "a", "b"⟩ "" "" JsonParseResult.nonArrayValue
      = getBaseAndHeadRefs ⟨"push", "", "", "a", "b"⟩ "" "" (JsonParseResult.array []) ∧
    (Refs.mk "a" "b" []).ignore = [] := by
  have h := c9_ignore_parse_soft ⟨"push", "", "", "a", "b"⟩ "" ""
    JsonParseResult.nonArrayValue (fun items hh => by cases hh)
  exact ⟨h.1, h.2 ⟨"a", "b", []⟩ (by rfl)⟩

end NxCheckChanges
